import Mathlib

/-
Verification of the MCBE-AI-Agent gateway against its specification.

The Python sources are shallowly embedded as executable Lean definitions:
  - `src/core/conversation.py`  (ConversationManager: turn counting, truncation,
    summary extraction, compression, session-id validation, load/delete)
  - `src/services/agent/worker.py` (AgentWorker: history trimming, reasoning
    stripping, event routing and history update)
  - `src/services/agent/core.py` (sentence extraction, streaming handler,
    stream_chat event sequence)
  - `src/services/websocket/connection.py` (ConnectionManager.unregister and
    the command-future failure paths)
  - `src/services/websocket/server.py` (_handle_command_response)
  - `src/core/queue.py` (QueueItem ordering, MessageBroker.submit_request)

Mutable Python state (futures, broker maps, queues) is modelled by explicit
state passing; the asyncio event loop is sequentialized, which is the usual
shallow embedding of single-threaded cooperative scheduling.
-/

namespace MCBE

/-! ## Python string primitives

Character-level models of the Python `str` operations used by the sources:
`str.strip()`, slicing by characters, and `re.sub(r"\s+", " ", ...)`.
Python's `strip` removes Unicode whitespace; the sources only ever meet the
ASCII whitespace characters modelled here. -/

/-- Whitespace as recognised by Python `str.strip` / `\s` for the character
set this program manipulates (ASCII whitespace). -/
def python_ws (c : Char) : Bool :=
  c == ' ' || c == '\t' || c == '\n' || c == '\r' || c == '\x0b' || c == '\x0c'

/-- Model of Python `s.strip()` on a character list. -/
def strip_chars (l : List Char) : List Char :=
  ((l.dropWhile python_ws).reverse.dropWhile python_ws).reverse

/-- Model of Python `s.strip()` on strings. -/
def py_strip (s : String) : String :=
  ⟨strip_chars s.toList⟩

/-- Truthiness of `s.strip()` in Python: the stripped string is nonempty iff
some character is not whitespace. -/
def has_non_ws (s : String) : Bool :=
  s.toList.any (fun c => !(python_ws c))

/-- Model of Python `s[:n]` (slicing by characters). -/
def py_take (s : String) (n : Nat) : String :=
  ⟨s.toList.take n⟩

/-- Model of `re.sub(r"\s+", " ", s)`: each maximal whitespace run becomes a
single space.  The boolean argument records whether the previous character
belonged to a whitespace run. -/
def collapse_ws_go (prev_ws : Bool) : List Char → List Char
  | [] => []
  | c :: cs =>
    if python_ws c then
      if prev_ws then collapse_ws_go true cs
      else ' ' :: collapse_ws_go true cs
    else c :: collapse_ws_go false cs

/-- Model of `re.sub(r"\s+", " ", s)` on strings. -/
def collapse_ws (s : String) : String :=
  ⟨collapse_ws_go false s.toList⟩

/-! ## Conversation message model

`pydantic_ai` message histories are lists of `ModelMessage`s (either a
`ModelRequest` or a `ModelResponse`), each carrying a list of parts tagged
with a `part_kind`.  Tool parts carry a `tool_call_id` used for matching. -/

/-- The `part_kind` tags appearing in the sources. -/
inductive PKind where
  | systemPrompt
  | userPrompt
  | text
  | thinking
  | toolCall
  | toolReturn
deriving DecidableEq, Repr

/-- One message part: a kind, its content, and (for tool parts) the id that
matches a `tool-call` with its `tool-return`. -/
structure Part where
  part_kind : PKind
  content : String := ""
  tool_call_id : String := ""
deriving DecidableEq, Repr

/-- `ModelRequest` vs `ModelResponse`. -/
inductive Role where
  | request
  | response
deriving DecidableEq, Repr

/-- One `ModelMessage`. -/
structure Msg where
  role : Role
  parts : List Part
deriving DecidableEq, Repr

/-- Does a message contain a part of the given kind? -/
def has_kind (m : Msg) (k : PKind) : Bool :=
  m.parts.any (fun p => p.part_kind == k)

/-! ## ConversationManager (src/core/conversation.py) -/

/-- `ConversationManager._count_turns`: one turn per message containing a
`user-prompt` part (the Python loop breaks after the first such part, so a
message counts at most once). -/
def count_turns (history : List Msg) : Nat :=
  (history.filter (fun m => has_kind m .userPrompt)).length

/-- `ConversationManager._get_compression_threshold`:
`int(max_history_turns * 0.8)`.  For every turn count the program meets, the
double-precision product `n * 0.8` truncates to `⌊4n/5⌋` (e.g. 5 ↦ 4,
7 ↦ 5, 10 ↦ 8), so the threshold is modelled in exact arithmetic. -/
def get_compression_threshold (max_history_turns : Nat) : Nat :=
  max_history_turns * 4 / 5

/-- Number of `user-prompt` parts of a message.  `_truncate_to_turns`
increments its counter once per part (unlike `_count_turns`). -/
def user_part_count (m : Msg) : Nat :=
  (m.parts.filter (fun p => p.part_kind == .userPrompt)).length

/-- Backward scan of `_truncate_to_turns`, phrased on the reversed history:
walk from the most recent message, accumulating `user-prompt` parts, until
the running count reaches `n`; return the scanned block (still reversed)
and the untouched older remainder.  `none` when fewer than `n` user parts
exist. -/
def split_parts_turns_rev (n : Nat) : List Msg → Option (List Msg × List Msg)
  | [] => none
  | m :: rest =>
    if n ≤ user_part_count m then some ([m], rest)
    else
      match split_parts_turns_rev (n - user_part_count m) rest with
      | some (k, o) => some (m :: k, o)
      | none => none

/-- `ConversationManager._truncate_to_turns`: keep the suffix starting at the
message holding the `max_turns`-th most recent `user-prompt` part; the full
history when it has fewer user parts; `[]` when `max_turns = 0`. -/
def truncate_to_turns (history : List Msg) (max_turns : Nat) : List Msg :=
  if max_turns = 0 then []
  else
    match split_parts_turns_rev max_turns history.reverse with
    | none => history
    | some (k, _) => k.reverse

/-- `ConversationManager._extract_keywords`: the first 50 characters,
stripped, with `"..."` appended when the text was longer than 50. -/
def extract_keywords (text : String) : String :=
  if text = "" then ""
  else
    let keywords := py_strip (py_take text 50)
    if 50 < text.length then keywords ++ "..." else keywords

/-- `ConversationManager._summarize_text` with its default `max_length = 100`:
collapse whitespace runs, strip, and truncate with a `"..."` suffix. -/
def summarize_text (text : String) : String :=
  if text = "" then ""
  else
    let t := py_strip (collapse_ws text)
    if t.length ≤ 100 then t
    else py_strip (py_take t 100) ++ "..."

/-- Summary entries contributed by one message in `_extract_summary`:
`"用户问: <keywords>"` per `user-prompt` part and `"AI答: <summary>"` per
`text` part, skipping empty extracts. -/
def summary_entries_of (m : Msg) : List String :=
  m.parts.foldl
    (fun acc p =>
      match p.part_kind with
      | .userPrompt =>
        let kw := extract_keywords p.content
        if kw = "" then acc else acc ++ ["用户问: " ++ kw]
      | .text =>
        let sm := summarize_text p.content
        if sm = "" then acc else acc ++ ["AI答: " ++ sm]
      | _ => acc)
    []

/-- `ConversationManager._extract_summary`: summarize the prefix of the
history older than the kept tail, joining at most 10 entries with `" | "`. -/
def extract_summary (history : List Msg) (keep_turns : Nat) : String :=
  let old_history := truncate_to_turns history keep_turns
  if history.length ≤ old_history.length then ""
  else
    let older_messages := history.take (history.length - old_history.length)
    let parts := older_messages.foldl (fun acc m => acc ++ summary_entries_of m) []
    String.intercalate " | " (parts.take 10)

/-- `ConversationManager._create_summary_message`: a synthetic `ModelRequest`
holding a single `user-prompt` part `"[历史摘要] " ++ summary`. -/
def create_summary_message (summary : String) : Msg :=
  ⟨.request, [⟨.userPrompt, "[历史摘要] " ++ summary, ""⟩]⟩

/-- `ConversationManager.compress_history` (its effect on the stored history):
keep the most recent `threshold` turns and prepend the synthetic summary
message when the summary is nonempty.  `none` models the paths where the
stored history is left unchanged. -/
def compress_history (history : List Msg) (max_history_turns : Nat)
    (force : Bool) : Option (List Msg) :=
  let threshold := get_compression_threshold max_history_turns
  if history = [] then none
  else
    let current_turns := count_turns history
    if !force && current_turns ≤ threshold then none
    else
      let truncated := truncate_to_turns history threshold
      let summary := extract_summary history threshold
      some (if summary = "" then truncated else create_summary_message summary :: truncated)

/-- `ConversationManager.check_and_compress` with `force=False`: compress when
the current turn count has reached the threshold. -/
def check_and_compress (history : List Msg) (max_history_turns : Nat) :
    Option (List Msg) :=
  if history = [] then none
  else if get_compression_threshold max_history_turns ≤ count_turns history then
    compress_history history max_history_turns false
  else none

/-! ## AgentWorker history trimming (src/services/agent/worker.py) -/

/-- A `ModelRequest` containing a `user-prompt` part — the messages counted by
the backward scan of `AgentWorker._trim_history`. -/
def is_user_request (m : Msg) : Bool :=
  m.role == .request && has_kind m .userPrompt

/-- Backward scan of `_trim_history`, phrased on the reversed history: walk
from the most recent message until the `n`-th user request is met; return the
scanned block (still reversed) and the older remainder.  `none` when fewer
than `n` user requests exist. -/
def split_at_turns_rev (n : Nat) : List Msg → Option (List Msg × List Msg)
  | [] => none
  | m :: rest =>
    if is_user_request m then
      if n ≤ 1 then some ([m], rest)
      else
        match split_at_turns_rev (n - 1) rest with
        | some (k, o) => some (m :: k, o)
        | none => none
    else
      match split_at_turns_rev n rest with
      | some (k, o) => some (m :: k, o)
      | none => none

/-- The messages the extension loop of `_trim_history` walks past: an
assistant response containing a `tool-call`, or a request containing a
`system-prompt`. -/
def extendable (m : Msg) : Bool :=
  (m.role == .response && has_kind m .toolCall) ||
  (m.role == .request && has_kind m .systemPrompt)

/-- Extension loop of `_trim_history` on the reversed older remainder: move
the cut backward over consecutive extendable messages; returns the extension
(reversed) and what stays dropped (reversed). -/
def extend_rev : List Msg → List Msg × List Msg
  | [] => ([], [])
  | m :: rest =>
    if extendable m then
      let p := extend_rev rest
      (m :: p.1, p.2)
    else ([], m :: rest)

/-- `AgentWorker._trim_history`: keep the suffix from the `max_turns`-th most
recent user request, extended backward over tool-call responses and
system-prompt requests; the full history when it has fewer user turns; `[]`
when `max_turns = 0`. -/
def trim_history (messages : List Msg) (max_turns : Nat) : List Msg :=
  if max_turns = 0 then []
  else
    match split_at_turns_rev max_turns messages.reverse with
    | none => messages
    | some (k, o) => (extend_rev o).1.reverse ++ k.reverse

/-- Index of the first kept message (`cut_idx` after the extension loop of
`_trim_history`); `trim_history` equals `messages.drop (trim_cut ..)`. -/
def trim_cut (messages : List Msg) (max_turns : Nat) : Nat :=
  if max_turns = 0 then messages.length
  else
    match split_at_turns_rev max_turns messages.reverse with
    | none => 0
    | some (_, o) => (extend_rev o).2.length

/-- `AgentWorker._strip_reasoning_content` on one part: a `thinking` part has
its content cleared (the `reasoning_content` attribute of provider-specific
parts is outside this message model). -/
def strip_part (p : Part) : Part :=
  if p.part_kind == .thinking then { p with content := "" } else p

/-- `AgentWorker._strip_reasoning_content`: clear reasoning content of every
assistant response; requests only undergo the recursive `reasoning_content`
sweep, which touches no field of this message model. -/
def strip_reasoning (messages : List Msg) : List Msg :=
  messages.map (fun m =>
    if m.role == .response then { m with parts := m.parts.map strip_part } else m)

/-! ## Sentence extraction and the streaming event pipeline
(src/services/agent/core.py) -/

/-- The character class of `SENTENCE_END_PATTERN = re.compile(r"[。！？\n.!?]+")`. -/
def sentence_end_char (c : Char) : Bool :=
  c == '。' || c == '！' || c == '？' || c == '\n' || c == '.' || c == '!' || c == '?'

/-- Does a maximal terminator run end at the current character, i.e. is the
next character absent or not a terminator? -/
def run_ends_here : List Char → Bool
  | [] => true
  | c :: _ => !(sentence_end_char c)

/-- Core loop of `_extract_complete_sentences`: `cur` is the reversed text
accumulated since the last sentence boundary; a sentence ends exactly at the
end of each maximal terminator run (`finditer` of the `+`-pattern yields the
maximal runs, and each match end is a boundary); sentences whose `strip()` is
empty are skipped, exactly as in the source. -/
def extract_go (cur : List Char) (acc : List (List Char)) :
    List Char → List (List Char) × List Char
  | [] => (acc.reverse, cur.reverse)
  | c :: cs =>
    if sentence_end_char c && run_ends_here cs then
      let s := (c :: cur).reverse
      extract_go [] (if s.any (fun x => !(python_ws x)) then s :: acc else acc) cs
    else
      extract_go (c :: cur) acc cs

/-- The unfiltered variant of `extract_go`: every terminator-delimited segment
is kept, including whitespace-only ones.  Used to phrase the segment
decomposition of a buffer. -/
def extract_go_all (cur : List Char) (acc : List (List Char)) :
    List Char → List (List Char) × List Char
  | [] => (acc.reverse, cur.reverse)
  | c :: cs =>
    if sentence_end_char c && run_ends_here cs then
      extract_go_all [] ((c :: cur).reverse :: acc) cs
    else
      extract_go_all (c :: cur) acc cs

/-- `_extract_complete_sentences`: the complete sentences of a buffer and the
remaining unfinished text. -/
def extract_complete_sentences (buffer : String) : List String × String :=
  let p := extract_go [] [] buffer.toList
  (p.1.map (fun l => ⟨l⟩), ⟨p.2⟩)

/-- The terminator-delimited segments of a buffer (each segment runs from the
previous boundary through the end of a maximal terminator run). -/
def terminator_segments (buffer : String) : List String :=
  ((extract_go_all [] [] buffer.toList).1).map (fun l => ⟨l⟩)

/-- The `tool_info` dict recorded per `FunctionToolCallEvent`. -/
structure ToolInfo where
  tool_name : String
  tool_call_id : String
  args : String
deriving DecidableEq, Repr

/-- The metadata of the completion event of `stream_chat` (the fields the
worker consumes; `usage` serialization is orthogonal to the claims). -/
structure EventMeta where
  is_complete : Bool
  all_messages : List Msg
  tool_events : List ToolInfo
deriving DecidableEq, Repr

/-- `StreamEvent` (src/models/agent.py): content events carry no metadata,
the terminal completion event carries `EventMeta`. -/
structure SEvent where
  event_type : String
  content : String
  sequence : Nat
  metadata : Option EventMeta := none
deriving DecidableEq, Repr

/-- The observable items of one `agent.iter()` run, in order: text deltas of
model-request nodes (`PartStartEvent` initial content and `TextPartDelta`
both feed the sentence buffer identically), `FunctionToolCallEvent` and
`FunctionToolResultEvent` of call-tools nodes, and an exception raised by the
underlying run. -/
inductive RunItem where
  | textDelta (s : String)
  | toolCallEv (info : ToolInfo)
  | toolResultEv (tool_call_id : String) (content : String)
  | raiseExc (msg : String)
deriving DecidableEq, Repr

/-- Is a run item the raising of an exception? -/
def is_raise (it : RunItem) : Bool :=
  match it with
  | .raiseExc _ => true
  | _ => false

/-- The `ToolInfo` of a `FunctionToolCallEvent` item. -/
def tool_call_of (it : RunItem) : Option ToolInfo :=
  match it with
  | .toolCallEv info => some info
  | _ => none

/-- `_HandlerContext`: the mutable state threaded through the handler. -/
structure HCtx where
  sequence : Nat := 0
  sentence_buffer : String := ""
  sent_text : String := ""
  all_messages : List Msg := []
  tool_events : List ToolInfo := []
deriving DecidableEq, Repr

/-- `_send_content_event`: build a content event, bump the sequence, extend
`sent_text`. -/
def send_content_event (ctx : HCtx) (content : String) : HCtx × SEvent :=
  ({ ctx with sequence := ctx.sequence + 1, sent_text := ctx.sent_text ++ content },
   { event_type := "content", content := content, sequence := ctx.sequence })

/-- Emit one content event per extracted sentence, in order. -/
def emit_sentences (ctx : HCtx) : List String → HCtx × List SEvent
  | [] => (ctx, [])
  | s :: rest =>
    let p := send_content_event ctx s
    let q := emit_sentences p.1 rest
    (q.1, p.2 :: q.2)

/-- `stream_response_handler`: fold the run items through the sentence
buffer.  Text deltas append to the buffer and flush complete sentences;
`FunctionToolCallEvent`s are recorded in `ctx.tool_events` (and only logged —
no stream event is yielded); `FunctionToolResultEvent`s are only logged; an
exception yields one error event and ends the iteration.  At the end node the
non-whitespace tail of the buffer is flushed and the run result
(`all_messages`) is read.  Returns the final context, the yielded events, and
whether the run errored. -/
def stream_response_handler (final_msgs : List Msg) (ctx : HCtx) :
    List RunItem → HCtx × List SEvent × Bool
  | [] =>
    if has_non_ws ctx.sentence_buffer then
      let p := send_content_event ctx ctx.sentence_buffer
      ({ p.1 with sentence_buffer := "", all_messages := final_msgs }, [p.2], false)
    else ({ ctx with all_messages := final_msgs }, [], false)
  | item :: rest =>
    match item with
    | .textDelta s =>
      if s = "" then stream_response_handler final_msgs ctx rest
      else
        let es := extract_complete_sentences (ctx.sentence_buffer ++ s)
        let p := emit_sentences { ctx with sentence_buffer := es.2 } es.1
        let q := stream_response_handler final_msgs p.1 rest
        (q.1, p.2 ++ q.2.1, q.2.2)
    | .toolCallEv info =>
      stream_response_handler final_msgs
        { ctx with tool_events := ctx.tool_events ++ [info] } rest
    | .toolResultEv _ _ => stream_response_handler final_msgs ctx rest
    | .raiseExc m =>
      (ctx,
       [{ event_type := "error", content := "流式响应处理错误: " ++ m,
          sequence := ctx.sequence }], true)

/-- `stream_chat` in streaming-sentence mode: run the handler; when an error
event was yielded the sequence stops there, otherwise the terminal completion
event (empty content, `is_complete` metadata with usage, `all_messages` and
`tool_events`) is appended. -/
def stream_chat (items : List RunItem) (final_msgs : List Msg) : List SEvent :=
  let r := stream_response_handler final_msgs {} items
  if r.2.2 then r.2.1
  else
    r.2.1 ++ [{ event_type := "content", content := "", sequence := r.1.sequence,
                metadata := some ⟨true, r.1.all_messages, r.1.tool_events⟩ }]

/-- Does an event carry metadata with `is_complete` set? -/
def is_complete_event (e : SEvent) : Bool :=
  match e.metadata with
  | some meta => meta.is_complete
  | none => false

/-- History-update effect of `AgentWorker._process_request_locked` over the
event stream (with `use_context=True` and the connection registered): only an
event whose metadata has `is_complete` rewrites the stored history, with
`strip_reasoning (trim_history all_messages max_history_turns)`. -/
def worker_update_history (init : List Msg) (events : List SEvent)
    (max_history_turns : Nat) : List Msg :=
  events.foldl
    (fun hist e =>
      match e.metadata with
      | some meta =>
        if meta.is_complete then
          strip_reasoning (trim_history meta.all_messages max_history_turns)
        else hist
      | none => hist)
    init

/-! ## Command futures, ConnectionManager.unregister
(src/services/websocket/connection.py) and the commandResponse handler
(src/services/websocket/server.py)

An `asyncio.Future[str]` is a mutable one-shot cell; futures are modelled by
ids into an explicit store, so that the same future can be referenced both
from `pending_command_futures` and from a queued `run_command` item. -/

/-- The state of one `asyncio.Future[str]`. -/
inductive FutState where
  | pending
  | done (v : String)
deriving DecidableEq, Repr

/-- `if not future.done(): future.set_result(msg)` on one future. -/
def fail_fut (f : FutState) (msg : String) : FutState :=
  match f with
  | .pending => .done msg
  | .done v => .done v

/-- Apply `fail_fut msg` to the future `fid` in the store. -/
def set_result (store : List (Nat × FutState)) (fid : Nat) (msg : String) :
    List (Nat × FutState) :=
  store.map (fun e => if e.1 = fid then (e.1, fail_fut e.2 msg) else e)

/-- An item of a per-connection response queue: a `run_command` dict carrying
a `result_future`, or any other item (`StreamChunk` / `game_message`), which
carries no future. -/
inductive RespItem where
  | runCommand (command : String) (result_future : Nat)
  | other
deriving DecidableEq, Repr

/-- The per-connection `ConnectionState` fields `unregister` touches. -/
structure ConnState where
  pending_command_futures : List (String × Nat)
  response_queue : List RespItem
deriving DecidableEq, Repr

/-- The string every orphaned command future is completed with. -/
def closed_msg : String := "命令执行失败: 连接已关闭"

/-- The `result_future` id of a queued `run_command` item, if any. -/
def fut_of (it : RespItem) : Option Nat :=
  match it with
  | .runCommand _ fid => some fid
  | .other => none

/-- `ConnectionManager._fail_pending_command_futures`: complete every
not-yet-done registered future with `closed_msg` and clear the map. -/
def fail_pending_command_futures (store : List (Nat × FutState))
    (c : ConnState) : List (Nat × FutState) × ConnState :=
  (c.pending_command_futures.foldl (fun st e => set_result st e.2 closed_msg) store,
   { c with pending_command_futures := [] })

/-- `ConnectionManager._fail_queued_command_futures`: drain the response
queue, completing the `result_future` of every queued `run_command` item. -/
def fail_queued_command_futures (store : List (Nat × FutState))
    (c : ConnState) : List (Nat × FutState) × ConnState :=
  (c.response_queue.foldl
    (fun st it =>
      match it with
      | .runCommand _ fid => set_result st fid closed_msg
      | .other => st)
    store,
   { c with response_queue := [] })

/-- `ConnectionManager.unregister` on one connection: fail pending and queued
futures, cancel the sender task (a no-op in this sequentialized model — the
claims concern the futures found in the map and the queue), fail both again,
then drop the broker registration. -/
def unregister (store : List (Nat × FutState)) (c : ConnState) :
    List (Nat × FutState) × ConnState :=
  let p1 := fail_pending_command_futures store c
  let p2 := fail_queued_command_futures p1.1 p1.2
  let p3 := fail_pending_command_futures p2.1 p2.2
  fail_queued_command_futures p3.1 p3.2

/-- Rendering of `body.statusCode` inside the failure f-string (`None` when
the field is absent, its decimal form otherwise). -/
def status_code_str (status_code : Option Int) : String :=
  match status_code with
  | some n => toString n
  | none => "None"

/-- `WebSocketServer._handle_command_response`: intercept a frame, look up
`requestId` among the pending futures, pop the entry and resolve the future
from `statusCode` / `statusMessage`.  Arguments mirror
`header.messagePurpose`, `header.requestId` (absent modelled as `""`, the
other falsy value), `body.statusCode` and `body.statusMessage`.  Returns the
new store, the new pending map and the handler's boolean result. -/
def handle_command_response (store : List (Nat × FutState))
    (pending : List (String × Nat)) (purpose : String) (request_id : String)
    (status_code : Option Int) (status_message : Option String) :
    List (Nat × FutState) × List (String × Nat) × Bool :=
  if purpose ≠ "commandResponse" then (store, pending, false)
  else if request_id = "" then (store, pending, true)
  else
    match pending.lookup request_id with
    | none => (store, pending, true)
    | some fid =>
      let pending2 := pending.eraseP (fun e => e.1 == request_id)
      let msg := status_message.getD ""
      let result :=
        if status_code = some 0 then
          if msg = "" then "命令执行成功" else msg
        else if msg = "" then
          "命令执行失败(statusCode=" ++ status_code_str status_code ++ ")"
        else
          "命令执行失败(statusCode=" ++ status_code_str status_code ++ "): " ++ msg
      (set_result store fid result, pending2, true)

/-! ## Session-id validation and session files (src/core/conversation.py)

The manager runs on POSIX, where `pathlib.Path` treats `\` as an ordinary
filename character; `Path(s).name` and `Path(s).suffix` are modelled at the
component level. -/

/-- Split a character list on `/`. -/
def split_slash : List Char → List (List Char)
  | [] => [[]]
  | c :: cs =>
    if c = '/' then [] :: split_slash cs
    else
      match split_slash cs with
      | [] => [[c]]
      | p :: ps => (c :: p) :: ps

/-- The path components `pathlib.PurePosixPath` keeps: empty components and
`"."` components are dropped. -/
def posix_components (s : String) : List (List Char) :=
  (split_slash s.toList).filter (fun c => c ≠ [] ∧ c ≠ ['.'])

/-- `pathlib.Path(s).name` on POSIX: the final kept component, `""` when none
remains (e.g. for `""`, `"."` or `"/"`). -/
def posix_name (s : String) : String :=
  match (posix_components s).getLast? with
  | some c => ⟨c⟩
  | none => ""

/-- `pathlib.Path(s).suffix` on POSIX: the part of the name from its last
dot, empty when the last dot is the first character or the last character
(so `".bashrc"`, `"a."` and `".."` have no suffix). -/
def posix_suffix (s : String) : String :=
  let name := (posix_name s).toList
  let i := (name.reverse.indexOf '.')
  if i < name.length then
    let pos := name.length - 1 - i
    if 0 < pos ∧ pos < name.length - 1 then ⟨name.drop pos⟩ else ""
  else ""

/-- Resolve a component list: `.` and empty components vanish, `..` pops. -/
def resolve_components (cs : List String) : List String :=
  cs.foldl
    (fun acc c =>
      if c = "." ∨ c = "" then acc
      else if c = ".." then acc.dropLast
      else acc ++ [c])
    []

/-- The storage root `data/conversations`, as components. -/
def storage_components : List String := ["data", "conversations"]

/-- `ConversationManager._get_session_file_path`: reject when
`Path(session_id).name != session_id` or the id has a suffix, then resolve
`storage / (session_id + ".json")` and require the storage root among its
parents (a proper prefix of its components). -/
def get_session_file_path (session_id : String) :
    Except String (List String) :=
  if posix_name session_id ≠ session_id ∨ posix_suffix session_id ≠ "" then
    .error ("非法会话 ID: " ++ session_id)
  else
    let file_path := resolve_components (storage_components ++ [session_id ++ ".json"])
    let storage_root := resolve_components storage_components
    if storage_root.isPrefixOf file_path ∧ storage_root ≠ file_path then
      .ok file_path
    else .error ("非法会话 ID: " ++ session_id)

/-- `ConversationManager.delete_conversation` over a filesystem modelled as
the list of existing files: result `(success, message)`, the new filesystem,
and whether any filesystem access (existence check, unlink) happened. -/
def delete_conversation (fs : List (List String)) (session_id : String) :
    (Bool × String) × List (List String) × Bool :=
  match get_session_file_path session_id with
  | .error e => ((false, e), fs, false)
  | .ok fp =>
    if fp ∈ fs then ((true, "已删除会话: " ++ session_id), fs.erase fp, true)
    else ((false, "会话不存在: " ++ session_id), fs, true)

/-- `ConversationManager.load_conversation` over the same filesystem model:
result `(success, message)` and whether any filesystem access happened (the
successful parse of an existing file is abstracted as `"<messages>"`; the
claims concern only the rejection path). -/
def load_conversation (fs : List (List String)) (session_id : String) :
    (Bool × String) × Bool :=
  match get_session_file_path session_id with
  | .error e => ((false, e), false)
  | .ok fp =>
    if fp ∈ fs then ((true, "<messages>"), true)
    else ((false, "会话不存在: " ++ session_id), true)

/-! ## MessageBroker request queue (src/core/queue.py) -/

/-- `QueueItem`: `@dataclass(order=True)` with `priority` and `sequence`
marked `compare=True` and `connection_id`, `payload` marked `compare=False`. -/
structure QueueItem where
  priority : Int
  connection_id : Nat
  payload : String
  sequence : Nat
deriving DecidableEq, Repr

/-- The generated `QueueItem.__lt__`: lexicographic comparison of the
`compare=True` fields in declaration order, `(priority, sequence)`. -/
def qlt (a b : QueueItem) : Prop :=
  a.priority < b.priority ∨ (a.priority = b.priority ∧ a.sequence < b.sequence)

instance : DecidablePred (fun p : QueueItem × QueueItem => qlt p.1 p.2) :=
  fun _ => by unfold qlt; infer_instance

instance (a b : QueueItem) : Decidable (qlt a b) := by unfold qlt; infer_instance

/-- The broker state `submit_request` touches: the bounded priority queue
(kept here in arrival order; the heap layout is irrelevant to the order
relation) and the monotonic sequence counter.  `max_size = 0` models an
unbounded `asyncio.PriorityQueue`. -/
structure Broker where
  max_size : Nat
  sequence : Nat := 0
  request_queue : List QueueItem := []
deriving DecidableEq, Repr

/-- Result of `submit_request`: the enqueued item, or the `QueueFull`
exception. -/
inductive SubmitResult where
  | ok (item : QueueItem)
  | queueFull
deriving DecidableEq, Repr

/-- `MessageBroker.submit_request`: take the next sequence number, build the
item, and `put_nowait` it — which raises `QueueFull` when the bounded queue
is at capacity (the counter was already incremented). -/
def submit_request (st : Broker) (connection_id : Nat) (payload : String)
    (priority : Int) : Broker × SubmitResult :=
  let seq := st.sequence + 1
  let item : QueueItem := ⟨priority, connection_id, payload, seq⟩
  if 0 < st.max_size ∧ st.max_size ≤ st.request_queue.length then
    ({ st with sequence := seq }, .queueFull)
  else
    ({ st with sequence := seq, request_queue := st.request_queue ++ [item] }, .ok item)

/-- Fold a list of `(priority, connection_id, payload)` requests through
`submit_request`, from a fresh broker. -/
def run_submits (max_size : Nat) (reqs : List (Int × Nat × String)) : Broker :=
  reqs.foldl (fun st r => (submit_request st r.2.1 r.2.2 r.1).1)
    { max_size := max_size }

/-- Broker invariant: queued sequence numbers strictly increase in arrival
order and never exceed the counter. -/
def broker_inv (st : Broker) : Prop :=
  st.request_queue.Pairwise (fun a b => a.sequence < b.sequence) ∧
  ∀ it ∈ st.request_queue, it.sequence ≤ st.sequence

/-! ## Concrete histories and runs used by the scenario claims -/

/-- One plain chat turn: a user request followed by a text response. -/
def mk_turn (q a : String) : List Msg :=
  [⟨.request, [⟨.userPrompt, q, ""⟩]⟩, ⟨.response, [⟨.text, a, ""⟩]⟩]

/-- A history of ten plain user turns. -/
def h10 : List Msg :=
  mk_turn "问1" "答1" ++ mk_turn "问2" "答2" ++ mk_turn "问3" "答3" ++
  mk_turn "问4" "答4" ++ mk_turn "问5" "答5" ++ mk_turn "问6" "答6" ++
  mk_turn "问7" "答7" ++ mk_turn "问8" "答8" ++ mk_turn "问9" "答9" ++
  mk_turn "问10" "答10"

/-- The summary `_extract_summary` builds from the six turns of `h10` older
than the kept tail (twelve entries, capped at ten). -/
def h10_summary : String :=
  "用户问: 问1 | AI答: 答1 | 用户问: 问2 | AI答: 答2 | 用户问: 问3 | AI答: 答3 | " ++
  "用户问: 问4 | AI答: 答4 | 用户问: 问5 | AI答: 答5"

/-- A history whose first message carries both a `system-prompt` and a
`user-prompt` part (the shape `pydantic_ai` gives the first request of a
run), followed by an unanswered tool call and a second user turn. -/
def trim_cx_history : List Msg :=
  [⟨.request, [⟨.systemPrompt, "你是一个助手", ""⟩, ⟨.userPrompt, "问题一", ""⟩]⟩,
   ⟨.response, [⟨.toolCall, "", "call_x"⟩]⟩,
   ⟨.request, [⟨.userPrompt, "问题二", ""⟩]⟩,
   ⟨.response, [⟨.text, "回答二", ""⟩]⟩]

/-- A history where the `tool-return` for `call_x` arrives two messages after
its `tool-call`, with a user request in between. -/
def trim_cx_pair_history : List Msg :=
  [⟨.response, [⟨.toolCall, "", "call_x"⟩]⟩,
   ⟨.response, [⟨.text, "内容", ""⟩]⟩,
   ⟨.request, [⟨.userPrompt, "问题", ""⟩]⟩,
   ⟨.request, [⟨.toolReturn, "", "call_x"⟩]⟩]

/-- The four text deltas of the streaming-sentence scenario. -/
def sentence_mode_items : List RunItem :=
  [.textDelta "你好", .textDelta "，世界。", .textDelta "再见", .textDelta "！"]

/-- A run observing one `FunctionToolCallEvent` and its paired
`FunctionToolResultEvent`. -/
def tool_call_items : List RunItem :=
  [.toolCallEv ⟨"run_minecraft_command", "call_1", "command=give @s diamond"⟩,
   .toolResultEv "call_1" "已执行命令: /give @s diamond"]

/-! # Theorems -/

set_option maxRecDepth 100000

/-- Claim C1 (counterexample): with `max_history_turns = 5` and ten user
turns, `check_and_compress` does compress, but counting turns on the new
history gives 5, not the claimed 6 — the compression keeps
`threshold = ⌊0.8·5⌋ = 4` verbatim turns (not 5), and the synthetic summary
message contributes the fifth turn. -/
theorem compress_turns_counterexample :
    (check_and_compress h10 5).map count_turns = some 5 ∧
    (check_and_compress h10 5).map count_turns ≠ some 6 := by
  constructor
  · decide
  · decide

/-- Claim C1 (amended): with `max_history_turns = 5` and ten user turns,
`check_and_compress` rewrites the history to a single synthetic user-prompt
request whose content starts with `"[历史摘要] "`, followed by exactly 4
verbatim recent turns (4 = the compression threshold `⌊0.8·5⌋`, not 5), and
counting turns on the result returns 5. -/
theorem compress_result_amended :
    get_compression_threshold 5 = 4 ∧
    check_and_compress h10 5 = some (create_summary_message h10_summary :: h10.drop 12) ∧
    h10.drop 12 =
      mk_turn "问7" "答7" ++ mk_turn "问8" "答8" ++ mk_turn "问9" "答9" ++
        mk_turn "问10" "答10" ∧
    (create_summary_message h10_summary).role = .request ∧
    (create_summary_message h10_summary).parts.map (fun p => p.part_kind) = [.userPrompt] ∧
    ((create_summary_message h10_summary).parts.map (fun p => p.content)).all
      (fun c => ("[历史摘要] ".toList).isPrefixOf c.toList) = true ∧
    count_turns (create_summary_message h10_summary :: h10.drop 12) = 5 := by
  refine ⟨by decide, by decide, by decide, by decide, by decide, by decide, by decide⟩

/-- Claim C2 (counterexample): trimming to `N = 1` can keep 2 user turns —
the backward extension over an unanswered tool-call response swallows the
opening request that carries both the system prompt and the first user
prompt — and a `tool-call`/`tool-return` pair separated by an interposed
user request is split: the trimmed history keeps the `tool-return` of
`call_x` but not its `tool-call`. -/
theorem trim_history_counterexample :
    count_turns trim_cx_history = 2 ∧
    min (count_turns trim_cx_history) 1 = 1 ∧
    count_turns (trim_history trim_cx_history 1) = 2 ∧
    (trim_history trim_cx_pair_history 1).any (fun m => has_kind m .toolReturn) = true ∧
    (trim_history trim_cx_pair_history 1).all (fun m => !(has_kind m .toolCall)) = true ∧
    (trim_cx_pair_history.head?.map (fun m => has_kind m .toolCall)) = some true := by
  refine ⟨by decide, by decide, by decide, by decide, by decide, by decide⟩

/-- Claim C3: in streaming sentence mode, the deltas `"你好"`, `"，世界。"`,
`"再见"`, `"！"` yield exactly the two content events `"你好，世界。"` and
`"再见！"` followed by one terminal content event with empty content and
`is_complete` metadata. -/
theorem stream_sentence_mode_events :
    stream_chat sentence_mode_items [] =
      [⟨"content", "你好，世界。", 0, none⟩,
       ⟨"content", "再见！", 1, none⟩,
       ⟨"content", "", 2, some ⟨true, [], []⟩⟩] := by
  decide

/-- Claim C4 (counterexample): a run observing one function-tool-call event
(and its paired result) yields no `StreamEvent` with event type `tool_call`
or `tool_result` at all — the streaming handler only records the call in the
completion metadata and logs the result. -/
theorem tool_call_event_counterexample :
    (tool_call_items.filterMap tool_call_of).length = 1 ∧
    (stream_chat tool_call_items []).all
      (fun e => !(e.event_type == "tool_call" || e.event_type == "tool_result")) = true := by
  exact ⟨by decide, by decide⟩

/-- Claim C7 (counterexample): the session id `a\b` contains a backslash,
yet `delete_conversation` does not return the invalid-id error — on POSIX,
`pathlib` treats `\` as an ordinary character, so the id passes validation,
the filesystem is consulted (third component `true`) and the result is the
not-found error instead; `load_conversation` behaves the same way, and the
id `a..` (containing `..`) is likewise not rejected. -/
theorem session_id_counterexample :
    delete_conversation [] "a\\b" = ((false, "会话不存在: a\\b"), [], true) ∧
    (false, "会话不存在: a\\b") ≠ ((false, "非法会话 ID: a\\b") : Bool × String) ∧
    load_conversation [] "a\\b" = ((false, "会话不存在: a\\b"), true) ∧
    delete_conversation [] "a.." = ((false, "会话不存在: a.."), [], true) := by
  refine ⟨by decide, by decide, by decide, by decide⟩

/-- Claim C8 (counterexample): a `commandResponse` with nonzero
`statusCode = 1` and no `statusMessage` resolves the future with
`"命令执行失败(statusCode=1)"` — without the `": <message>"` tail the claim
prescribes for every nonzero status. -/
theorem command_response_counterexample :
    handle_command_response [(0, .pending)] [("r1", 0)] "commandResponse" "r1"
        (some 1) none
      = ([(0, .done "命令执行失败(statusCode=1)")], [], true) ∧
    "命令执行失败(statusCode=1)" ≠ "命令执行失败(statusCode=1): " := by
  exact ⟨by decide, by decide⟩

/-! ## Path-validation lemmas -/

/-- No component produced by `split_slash` contains the separator. -/
theorem mem_split_slash_no_sep : ∀ (l : List Char) (c : List Char),
    c ∈ split_slash l → '/' ∉ c := by
  intro l
  induction l with
  | nil => intro c hc; simp [split_slash] at hc; simp [hc]
  | cons x xs ih =>
    intro c hc
    by_cases hx : x = '/'
    · simp [split_slash, hx] at hc
      rcases hc with h | h
      · simp [h]
      · exact ih c h
    · simp [split_slash, hx] at hc
      rcases h : split_slash xs with _ | ⟨p, ps⟩
      · rw [h] at hc; simp at hc
        subst hc
        simp
        exact fun hh => hx hh.symm
      · rw [h] at hc; simp at hc
        rcases hc with h1 | h1
        · subst h1
          intro hmem
          simp at hmem
          rcases hmem with h2 | h2
          · exact hx h2.symm
          · exact ih p (by rw [h]; exact List.mem_cons_self _ _) h2
        · exact ih c (by rw [h]; exact List.mem_cons_of_mem _ h1)

/-- A POSIX path name never contains `/`. -/
theorem posix_name_no_sep (s : String) : '/' ∉ (posix_name s).toList := by
  unfold posix_name
  rcases h : (posix_components s).getLast? with _ | c
  · simp [String.toList]
  · obtain ⟨hne, hc⟩ := List.mem_getLast?_eq_getLast (l := posix_components s) (x := c) h
    have hmem : c ∈ posix_components s := hc ▸ List.getLast_mem hne
    have : c ∈ split_slash s.toList := List.mem_of_mem_filter hmem
    simpa [String.toList] using mem_split_slash_no_sep _ _ this

/-- A session id containing `/` always fails the `Path(s).name == s` check. -/
theorem sep_name_ne (s : String) (h : '/' ∈ s.toList) : posix_name s ≠ s := by
  intro he
  exact posix_name_no_sep s (by rw [he]; exact h)

/-- Claim C7 (amended): a session id is rejected — `(False, "非法会话 ID: <id>")`
from both `load_conversation` and `delete_conversation`, with no filesystem
access — exactly when its POSIX `Path(id).name` differs from the id or its
`Path(id).suffix` is nonempty; any id containing `/` (such as `../escape`)
is of this kind.  Ids containing `\` or `..` need not be rejected (see the
counterexample): POSIX `pathlib` treats `\` as an ordinary character, and
ids such as `a..` pass both checks. -/
theorem session_id_validation_amended (s : String) (fs : List (List String))
    (hbad : posix_name s ≠ s ∨ posix_suffix s ≠ "") :
    load_conversation fs s = ((false, "非法会话 ID: " ++ s), false) ∧
    delete_conversation fs s = ((false, "非法会话 ID: " ++ s), fs, false) ∧
    ∀ t : String, '/' ∈ t.toList → posix_name t ≠ t := by
  have hg : get_session_file_path s = .error ("非法会话 ID: " ++ s) := by
    unfold get_session_file_path
    rw [if_pos hbad]
  exact ⟨by simp [load_conversation, hg], by simp [delete_conversation, hg], sep_name_ne⟩

/-- Witness for `session_id_validation_amended` at `session_id = "../escape"`
over the empty filesystem. -/
theorem session_id_validation_amended_witness :
    load_conversation [] "../escape" = ((false, "非法会话 ID: ../escape"), false) ∧
    delete_conversation [] "../escape" = ((false, "非法会话 ID: ../escape"), [], false) ∧
    ∀ t : String, '/' ∈ t.toList → posix_name t ≠ t :=
  session_id_validation_amended "../escape" [] (by decide)

/-! ## Future-store lemmas -/

/-- Unfolding of `set_result` on a cons cell. -/
theorem set_result_cons (a : Nat) (v : FutState) (rest : List (Nat × FutState))
    (fid : Nat) (msg : String) :
    set_result ((a, v) :: rest) fid msg =
      (if a = fid then (a, fail_fut v msg) else (a, v)) :: set_result rest fid msg := by
  simp [set_result]

/-- Unfolding of association lookup on a cons cell. -/
theorem lookup_cons_pair (k a : Nat) (v : FutState) (l : List (Nat × FutState)) :
    ((a, v) :: l).lookup k = if k = a then some v else l.lookup k := by
  by_cases h : k = a
  · simp [List.lookup, h]
  · simp [List.lookup, h, show (k == a) = false by simpa using h]

/-- Looking up a future after `set_result`: the targeted id is transformed by
`fail_fut`, every other id is untouched. -/
theorem lookup_set_result : ∀ (store : List (Nat × FutState)) (fid k : Nat) (msg : String),
    (set_result store fid msg).lookup k =
      if k = fid then (store.lookup k).map (fun f => fail_fut f msg)
      else store.lookup k
  | [], fid, k, msg => by simp [set_result]
  | (a, v) :: rest, fid, k, msg => by
    have htail := lookup_set_result rest fid k msg
    rw [set_result_cons]
    by_cases hf : a = fid
    · rw [if_pos hf]
      by_cases hk : k = a
      · rw [lookup_cons_pair, if_pos hk, lookup_cons_pair, if_pos hk,
          if_pos (hk.trans hf)]
        simp
      · rw [lookup_cons_pair, if_neg hk, lookup_cons_pair, if_neg hk, htail]
    · rw [if_neg hf]
      by_cases hk : k = a
      · rw [lookup_cons_pair, if_pos hk, lookup_cons_pair, if_pos hk,
          if_neg (hk ▸ hf)]
      · rw [lookup_cons_pair, if_neg hk, lookup_cons_pair, if_neg hk, htail]

/-- Completing an already-completed future changes nothing. -/
theorem fail_fut_idem (f : FutState) (msg : String) :
    fail_fut (fail_fut f msg) msg = fail_fut f msg := by
  cases f <;> rfl

/-- Looking up a future after a fold of `set_result` over a list of ids. -/
theorem lookup_fold_set : ∀ (fids : List Nat) (store : List (Nat × FutState)) (k : Nat) (msg : String),
    (fids.foldl (fun st i => set_result st i msg) store).lookup k =
      if k ∈ fids then (store.lookup k).map (fun f => fail_fut f msg)
      else store.lookup k
  | [], store, k, msg => by simp
  | i :: rest, store, k, msg => by
    have ih := lookup_fold_set rest (set_result store i msg) k msg
    simp only [List.foldl_cons] at *
    rw [ih, lookup_set_result]
    by_cases hk : k = i
    · subst hk
      by_cases hr : k ∈ rest
      · rw [if_pos hr, if_pos rfl, if_pos (List.mem_cons_self _ _)]
        cases store.lookup k with
        | none => simp
        | some f => simp [fail_fut_idem]
      · rw [if_neg hr, if_pos rfl, if_pos (List.mem_cons_self _ _)]
    · by_cases hr : k ∈ rest
      · rw [if_pos hr, if_neg hk, if_pos (List.mem_cons_of_mem _ hr)]
      · rw [if_neg hr, if_neg hk, if_neg (by simp [hk, hr])]

/-- A key absent from an association list looks up to `none`. -/
theorem lookup_eq_none_of_not_mem_keys : ∀ (l : List (String × Nat)) (rid : String),
    rid ∉ l.map Prod.fst → l.lookup rid = none
  | [], _, _ => rfl
  | (a, _) :: rest, rid, h => by
    simp only [List.map_cons, List.mem_cons] at h
    push_neg at h
    simp [List.lookup, show (rid == a) = false by simpa using h.1,
      lookup_eq_none_of_not_mem_keys rest rid h.2]

/-- Popping a key from an association list with no duplicate keys removes
it. -/
theorem lookup_eraseP_self : ∀ (l : List (String × Nat)) (rid : String),
    (l.map Prod.fst).Nodup →
    (l.eraseP (fun e => e.1 == rid)).lookup rid = none
  | [], _, _ => rfl
  | (a, v) :: rest, rid, hnd => by
    simp only [List.map_cons, List.nodup_cons] at hnd
    by_cases ha : a = rid
    · subst ha
      rw [List.eraseP_cons_of_pos (by simp)]
      exact lookup_eq_none_of_not_mem_keys rest a hnd.1
    · rw [List.eraseP_cons_of_neg (by simpa using ha)]
      have hstep : ((a, v) :: rest.eraseP (fun e => e.1 == rid)).lookup rid =
          if rid = a then some v else (rest.eraseP (fun e => e.1 == rid)).lookup rid := by
        by_cases h : rid = a
        · simp [List.lookup, h]
        · simp [List.lookup, h, show (rid == a) = false by simpa using h]
      rw [hstep, if_neg (fun h => ha h.symm)]
      exact lookup_eraseP_self rest rid hnd.2

/-- Claim C8 (amended): a `commandResponse` frame whose `requestId` is a
pending key resolves the corresponding pending future — with `statusMessage`
when `statusCode = 0` and the message is nonempty, with `"命令执行成功"` when
it is empty, and for nonzero (or absent) status with
`"命令执行失败(statusCode=<code>): <message>"` when the message is nonempty
but `"命令执行失败(statusCode=<code>)"` (no message tail) when it is empty —
and removes the entry from the pending map. -/
theorem command_response_amended (store : List (Nat × FutState))
    (pending : List (String × Nat)) (rid : String) (fid : Nat)
    (code : Option Int) (m : Option String)
    (hrid : rid ≠ "") (hlk : pending.lookup rid = some fid)
    (hnd : (pending.map Prod.fst).Nodup)
    (hpend : store.lookup fid = some .pending) :
    (handle_command_response store pending "commandResponse" rid code m).2.2 = true ∧
    (handle_command_response store pending "commandResponse" rid code m).2.1.lookup rid = none ∧
    (code = some 0 → m.getD "" ≠ "" →
      (handle_command_response store pending "commandResponse" rid code m).1.lookup fid
        = some (.done (m.getD ""))) ∧
    (code = some 0 → m.getD "" = "" →
      (handle_command_response store pending "commandResponse" rid code m).1.lookup fid
        = some (.done "命令执行成功")) ∧
    (code ≠ some 0 → m.getD "" = "" →
      (handle_command_response store pending "commandResponse" rid code m).1.lookup fid
        = some (.done ("命令执行失败(statusCode=" ++ status_code_str code ++ ")"))) ∧
    (code ≠ some 0 → m.getD "" ≠ "" →
      (handle_command_response store pending "commandResponse" rid code m).1.lookup fid
        = some (.done ("命令执行失败(statusCode=" ++ status_code_str code ++ "): " ++ m.getD ""))) := by
  have hunfold : handle_command_response store pending "commandResponse" rid code m =
      (set_result store fid
        (if code = some 0 then
          if m.getD "" = "" then "命令执行成功" else m.getD ""
        else if m.getD "" = "" then
          "命令执行失败(statusCode=" ++ status_code_str code ++ ")"
        else
          "命令执行失败(statusCode=" ++ status_code_str code ++ "): " ++ m.getD ""),
       pending.eraseP (fun e => e.1 == rid), true) := by
    unfold handle_command_response
    rw [if_neg (by simp), if_neg hrid, hlk]
  rw [hunfold]
  have hset : ∀ msg : String, (set_result store fid msg).lookup fid = some (.done msg) := by
    intro msg
    rw [lookup_set_result, if_pos rfl, hpend]
    rfl
  refine ⟨rfl, lookup_eraseP_self pending rid hnd, ?_, ?_, ?_, ?_⟩
  · intro h0 hm
    simpa [if_pos h0, if_neg hm] using hset _
  · intro h0 hm
    simpa [if_pos h0, if_pos hm] using hset _
  · intro h0 hm
    simpa [if_neg h0, if_pos hm] using hset _
  · intro h0 hm
    simpa [if_neg h0, if_neg hm] using hset _

/-- Witness for `command_response_amended`: the command-RPC happy path, a
`statusCode = 0` response carrying `"Gave 1 Diamond to Tester"`. -/
theorem command_response_amended_witness :
    (handle_command_response [(0, .pending)] [("r9", 0)] "commandResponse" "r9"
        (some 0) (some "Gave 1 Diamond to Tester")).2.2 = true ∧
    (handle_command_response [(0, .pending)] [("r9", 0)] "commandResponse" "r9"
        (some 0) (some "Gave 1 Diamond to Tester")).2.1.lookup "r9" = none ∧
    ((some 0 : Option Int) = some 0 → (some "Gave 1 Diamond to Tester" : Option String).getD "" ≠ "" →
      (handle_command_response [(0, .pending)] [("r9", 0)] "commandResponse" "r9"
        (some 0) (some "Gave 1 Diamond to Tester")).1.lookup 0
        = some (.done ((some "Gave 1 Diamond to Tester" : Option String).getD ""))) ∧
    ((some 0 : Option Int) = some 0 → (some "Gave 1 Diamond to Tester" : Option String).getD "" = "" →
      (handle_command_response [(0, .pending)] [("r9", 0)] "commandResponse" "r9"
        (some 0) (some "Gave 1 Diamond to Tester")).1.lookup 0
        = some (.done "命令执行成功")) ∧
    ((some 0 : Option Int) ≠ some 0 → (some "Gave 1 Diamond to Tester" : Option String).getD "" = "" →
      (handle_command_response [(0, .pending)] [("r9", 0)] "commandResponse" "r9"
        (some 0) (some "Gave 1 Diamond to Tester")).1.lookup 0
        = some (.done ("命令执行失败(statusCode=" ++ status_code_str (some 0) ++ ")"))) ∧
    ((some 0 : Option Int) ≠ some 0 → (some "Gave 1 Diamond to Tester" : Option String).getD "" ≠ "" →
      (handle_command_response [(0, .pending)] [("r9", 0)] "commandResponse" "r9"
        (some 0) (some "Gave 1 Diamond to Tester")).1.lookup 0
        = some (.done ("命令执行失败(statusCode=" ++ status_code_str (some 0) ++ "): " ++
            (some "Gave 1 Diamond to Tester" : Option String).getD ""))) :=
  command_response_amended [(0, .pending)] [("r9", 0)] "r9" 0 (some 0)
    (some "Gave 1 Diamond to Tester") (by decide) (by decide) (by decide) (by decide)

/-- Folding `set_result` over the pending map equals folding over its future
ids. -/
theorem foldl_pending_eq (pend : List (String × Nat)) (store : List (Nat × FutState)) :
    pend.foldl (fun st e => set_result st e.2 closed_msg) store =
      (pend.map Prod.snd).foldl (fun st i => set_result st i closed_msg) store := by
  rw [List.foldl_map]

/-- Folding `set_result` over the response queue equals folding over the
future ids of its `run_command` items. -/
theorem foldl_queue_eq : ∀ (q : List RespItem) (store : List (Nat × FutState)),
    q.foldl
      (fun st it =>
        match it with
        | .runCommand _ fid => set_result st fid closed_msg
        | .other => st)
      store =
    (q.filterMap fut_of).foldl (fun st i => set_result st i closed_msg) store
  | [], _ => rfl
  | it :: rest, store => by
    cases it with
    | runCommand cmd fid =>
      simp only [List.foldl_cons, List.filterMap_cons, fut_of]
      exact foldl_queue_eq rest _
    | other =>
      simp only [List.foldl_cons, List.filterMap_cons, fut_of]
      exact foldl_queue_eq rest _

/-- Claim C5: after `unregister`, every future referenced from the pending
map or from a queued `run_command` item is completed with
`"命令执行失败: 连接已关闭"` if it was still pending, and left untouched if it
was already done; the map and the queue end up empty. -/
theorem unregister_resolves_futures (store : List (Nat × FutState)) (c : ConnState) (fid : Nat)
    (href : (∃ rid, (rid, fid) ∈ c.pending_command_futures) ∨
            (∃ cmd, RespItem.runCommand cmd fid ∈ c.response_queue)) :
    ((unregister store c).1).lookup fid =
      (store.lookup fid).map (fun f => fail_fut f closed_msg) ∧
    ((unregister store c).2).pending_command_futures = [] ∧
    ((unregister store c).2).response_queue = [] := by
  have hstore : (unregister store c).1 =
      (c.response_queue.filterMap fut_of).foldl (fun st i => set_result st i closed_msg)
        ((c.pending_command_futures.map Prod.snd).foldl
          (fun st i => set_result st i closed_msg) store) := by
    simp only [unregister, fail_pending_command_futures, fail_queued_command_futures,
      List.foldl_nil]
    rw [foldl_pending_eq, foldl_queue_eq]
  have hconn : (unregister store c).2.pending_command_futures = [] ∧
      (unregister store c).2.response_queue = [] := by
    simp [unregister, fail_pending_command_futures, fail_queued_command_futures]
  refine ⟨?_, hconn.1, hconn.2⟩
  rw [hstore, lookup_fold_set, lookup_fold_set]
  by_cases hP : fid ∈ c.pending_command_futures.map Prod.snd
  · rw [if_pos hP]
    by_cases hQ : fid ∈ c.response_queue.filterMap fut_of
    · rw [if_pos hQ]
      cases store.lookup fid with
      | none => rfl
      | some f => simp [fail_fut_idem]
    · rw [if_neg hQ]
  · rw [if_neg hP]
    have hQ : fid ∈ c.response_queue.filterMap fut_of := by
      rcases href with ⟨rid, hm⟩ | ⟨cmd, hm⟩
      · exact absurd (List.mem_map_of_mem Prod.snd hm) hP
      · exact List.mem_filterMap.mpr ⟨RespItem.runCommand cmd fid, hm, rfl⟩
    rw [if_pos hQ]

/-- Witness for `unregister_resolves_futures`: one registered pending future
plus one done future referenced from a queued `run_command` item. -/
theorem unregister_resolves_futures_witness :
    ((unregister [(0, .pending), (1, .done "old")]
        ⟨[("a", 0)], [RespItem.other, RespItem.runCommand "time set day" 1]⟩).1).lookup 0 =
      (([(0, FutState.pending), (1, FutState.done "old")].lookup 0).map
        (fun f => fail_fut f closed_msg)) ∧
    ((unregister [(0, .pending), (1, .done "old")]
        ⟨[("a", 0)], [RespItem.other, RespItem.runCommand "time set day" 1]⟩).2).pending_command_futures = [] ∧
    ((unregister [(0, .pending), (1, .done "old")]
        ⟨[("a", 0)], [RespItem.other, RespItem.runCommand "time set day" 1]⟩).2).response_queue = [] :=
  unregister_resolves_futures [(0, .pending), (1, .done "old")]
    ⟨[("a", 0)], [RespItem.other, RespItem.runCommand "time set day" 1]⟩ 0
    (Or.inl ⟨"a", by decide⟩)


/-- One `submit_request` preserves the broker invariant: the new item gets
the strictly larger sequence number `sequence + 1`, and a `QueueFull` raise
leaves the queue unchanged. -/
theorem submit_preserves_inv (st : Broker) (cid : Nat) (pl : String) (prio : Int)
    (h : broker_inv st) : broker_inv (submit_request st cid pl prio).1 := by
  unfold submit_request
  by_cases hfull : 0 < st.max_size ∧ st.max_size ≤ st.request_queue.length
  · rw [if_pos hfull]
    exact ⟨h.1, fun it hit => Nat.le_succ_of_le (h.2 it hit)⟩
  · rw [if_neg hfull]
    refine ⟨?_, ?_⟩
    · rw [List.pairwise_append]
      refine ⟨h.1, List.pairwise_singleton _ _, ?_⟩
      intro a ha b hb
      simp only [List.mem_singleton] at hb
      subst hb
      exact Nat.lt_succ_of_le (h.2 a ha)
    · intro it hit
      rcases List.mem_append.mp hit with hm | hm
      · exact Nat.le_succ_of_le (h.2 it hm)
      · simp only [List.mem_singleton] at hm
        subst hm
        exact Nat.le_refl _
  
/-- The broker invariant is preserved by any sequence of submissions. -/
theorem run_submits_inv_aux : ∀ (reqs : List (Int × Nat × String)) (st : Broker),
    broker_inv st →
    broker_inv (reqs.foldl (fun st r => (submit_request st r.2.1 r.2.2 r.1).1) st)
  | [], st, h => h
  | r :: rest, st, h => by
    simp only [List.foldl_cons]
    exact run_submits_inv_aux rest _ (submit_preserves_inv st r.2.1 r.2.2 r.1 h)

/-- Every broker state reached by submissions from a fresh broker satisfies
the invariant. -/
theorem run_submits_inv (max_size : Nat) (reqs : List (Int × Nat × String)) :
    broker_inv (run_submits max_size reqs) :=
  run_submits_inv_aux reqs { max_size := max_size } ⟨List.Pairwise.nil, by simp⟩

/-- Two members of a pairwise-related list are equal or related one way or
the other. -/
theorem pairwise_total {α : Type} {R : α → α → Prop} :
    ∀ {l : List α}, l.Pairwise R → ∀ a ∈ l, ∀ b ∈ l, a = b ∨ R a b ∨ R b a := by
  intro l
  induction l with
  | nil => intro _ a ha; simp at ha
  | cons x xs ih =>
    intro hp a ha b hb
    rcases List.mem_cons.mp ha with h1 | h1 <;> rcases List.mem_cons.mp hb with h2 | h2
    · exact Or.inl (h1.trans h2.symm)
    · exact Or.inr (Or.inl (h1 ▸ (List.rel_of_pairwise_cons hp h2)))
    · exact Or.inr (Or.inr (h2 ▸ (List.rel_of_pairwise_cons hp h1)))
    · exact ih (List.Pairwise.sublist (List.sublist_cons_self x xs) hp) a h1 b h2

/-- Claim C9: the `QueueItem` order relation compares exactly
`(priority, sequence)` lexicographically — `connection_id` and `payload` do
not occur in the comparison — it is irreflexive and transitive, the sequence
numbers `submit_request` assigns are strictly increasing and unique along
the queue, so on any reachable queue the relation is total on distinct
items (a strict total order), and `submit_request` raises `QueueFull` when
the bounded queue is at capacity. -/
theorem queue_item_order :
    (∀ (p₁ p₂ : Int) (c₁ c₂ : Nat) (l₁ l₂ : String) (s₁ s₂ : Nat),
      qlt ⟨p₁, c₁, l₁, s₁⟩ ⟨p₂, c₂, l₂, s₂⟩ ↔ (p₁ < p₂ ∨ (p₁ = p₂ ∧ s₁ < s₂))) ∧
    (∀ a : QueueItem, ¬ qlt a a) ∧
    (∀ a b c : QueueItem, qlt a b → qlt b c → qlt a c) ∧
    (∀ (ms : Nat) (reqs : List (Int × Nat × String)),
      (run_submits ms reqs).request_queue.Pairwise (fun a b => a.sequence < b.sequence)) ∧
    (∀ (ms : Nat) (reqs : List (Int × Nat × String)) (a b : QueueItem),
      a ∈ (run_submits ms reqs).request_queue → b ∈ (run_submits ms reqs).request_queue →
      a ≠ b → qlt a b ∨ qlt b a) ∧
    (∀ (st : Broker) (cid : Nat) (pl : String) (prio : Int),
      0 < st.max_size → st.max_size ≤ st.request_queue.length →
      (submit_request st cid pl prio).2 = .queueFull) := by
  refine ⟨fun _ _ _ _ _ _ _ _ => Iff.rfl, ?_, ?_, ?_, ?_, ?_⟩
  · rintro a (h | ⟨-, h⟩)
    · exact lt_irrefl _ h
    · exact lt_irrefl _ h
  · rintro a b c (h1 | ⟨he1, h1⟩) (h2 | ⟨he2, h2⟩)
    · exact Or.inl (h1.trans h2)
    · exact Or.inl (he2 ▸ h1)
    · exact Or.inl (he1 ▸ h2)
    · exact Or.inr ⟨he1.trans he2, h1.trans h2⟩
  · exact fun ms reqs => (run_submits_inv ms reqs).1
  · intro ms reqs a b ha hb hne
    rcases pairwise_total (run_submits_inv ms reqs).1 a ha b hb with h | h | h
    · exact absurd h hne
    · rcases lt_trichotomy a.priority b.priority with hp | hp | hp
      · exact Or.inl (Or.inl hp)
      · exact Or.inl (Or.inr ⟨hp, h⟩)
      · exact Or.inr (Or.inl hp)
    · rcases lt_trichotomy a.priority b.priority with hp | hp | hp
      · exact Or.inl (Or.inl hp)
      · exact Or.inr (Or.inr ⟨hp.symm, h⟩)
      · exact Or.inr (Or.inl hp)
  · intro st cid pl prio h1 h2
    unfold submit_request
    rw [if_pos ⟨h1, h2⟩]

/-- Witness for `queue_item_order`: totality on two distinct items of a
concrete reachable queue, `QueueFull` at capacity, and irreflexivity. -/
theorem queue_item_order_witness :
    (qlt ⟨1, 7, "x", 1⟩ ⟨1, 7, "z", 3⟩ ∨ qlt ⟨1, 7, "z", 3⟩ ⟨1, 7, "x", 1⟩) ∧
    (submit_request ⟨1, 5, [⟨0, 0, "w", 1⟩]⟩ 9 "p" 0).2 = .queueFull ∧
    ¬ qlt ⟨1, 7, "x", 1⟩ ⟨1, 7, "x", 1⟩ :=
  ⟨queue_item_order.2.2.2.2.1 10 [(1, 7, "x"), (0, 8, "y"), (1, 7, "z")]
      ⟨1, 7, "x", 1⟩ ⟨1, 7, "z", 3⟩ (by decide) (by decide) (by decide),
   queue_item_order.2.2.2.2.2 ⟨1, 5, [⟨0, 0, "w", 1⟩]⟩ 9 "p" 0 (by decide) (by decide),
   queue_item_order.2.1 ⟨1, 7, "x", 1⟩⟩


/-- Events emitted for a sentence batch are all content events without
metadata, and the fold leaves `tool_events` unchanged. -/
theorem emit_sentences_spec : ∀ (ss : List String) (ctx : HCtx),
    (∀ e ∈ (emit_sentences ctx ss).2, e.event_type = "content" ∧ e.metadata = none) ∧
    (emit_sentences ctx ss).1.tool_events = ctx.tool_events
  | [], ctx => by simp [emit_sentences]
  | s :: rest, ctx => by
    have ih := emit_sentences_spec rest (send_content_event ctx s).1
    simp only [emit_sentences]
    constructor
    · intro e he
      rcases List.mem_cons.mp he with h | h
      · subst h
        simp [send_content_event]
      · exact ih.1 e h
    · rw [ih.2]
      rfl

/-- A run without an exception: the handler reports no error, yields only
content events without metadata, and records exactly the function-tool-call
events, in order, in `tool_events`. -/
theorem handler_no_raise : ∀ (items : List RunItem) (ctx : HCtx) (fm : List Msg),
    (∀ it ∈ items, is_raise it = false) →
    (stream_response_handler fm ctx items).2.2 = false ∧
    (∀ e ∈ (stream_response_handler fm ctx items).2.1,
      e.event_type = "content" ∧ e.metadata = none) ∧
    (stream_response_handler fm ctx items).1.tool_events =
      ctx.tool_events ++ items.filterMap tool_call_of
  | [], ctx, fm, _ => by
    by_cases hb : has_non_ws ctx.sentence_buffer
    · simp only [stream_response_handler, if_pos hb]
      refine ⟨by trivial, ?_, by simp [send_content_event]⟩
      intro e he
      simp only [List.mem_singleton] at he
      subst he
      simp [send_content_event]
    · simp only [stream_response_handler, if_neg hb]
      exact ⟨by trivial, by simp, by simp⟩
  | item :: rest, ctx, fm, h => by
    have hrest : ∀ it ∈ rest, is_raise it = false :=
      fun it hit => h it (List.mem_cons_of_mem _ hit)
    cases item with
    | textDelta s =>
      by_cases hs : s = ""
      · simp only [stream_response_handler, if_pos hs]
        have ih := handler_no_raise rest ctx fm hrest
        simpa [tool_call_of] using ih
      · simp only [stream_response_handler, if_neg hs]
        have hemit := emit_sentences_spec
          (extract_complete_sentences (ctx.sentence_buffer ++ s)).1
          { ctx with sentence_buffer := (extract_complete_sentences (ctx.sentence_buffer ++ s)).2 }
        have ih := handler_no_raise rest
          (emit_sentences { ctx with sentence_buffer := (extract_complete_sentences (ctx.sentence_buffer ++ s)).2 }
            (extract_complete_sentences (ctx.sentence_buffer ++ s)).1).1 fm hrest
        refine ⟨ih.1, ?_, ?_⟩
        · intro e he
          rcases List.mem_append.mp he with hm | hm
          · exact hemit.1 e hm
          · exact ih.2.1 e hm
        · rw [ih.2.2, hemit.2]
          simp [tool_call_of]
    | toolCallEv info =>
      simp only [stream_response_handler]
      have ih := handler_no_raise rest { ctx with tool_events := ctx.tool_events ++ [info] } fm hrest
      refine ⟨ih.1, ih.2.1, ?_⟩
      rw [ih.2.2]
      simp [tool_call_of]
    | toolResultEv tid cnt =>
      simp only [stream_response_handler]
      have ih := handler_no_raise rest ctx fm hrest
      refine ⟨ih.1, ih.2.1, ?_⟩
      rw [ih.2.2]
      simp [tool_call_of]
    | raiseExc m =>
      exact absurd (h _ (List.mem_cons_self _ _)) (by simp [is_raise])


/-- Claim C4 (amended): in streaming mode the handler yields no `tool_call`
or `tool_result` stream events at all; instead, for every
function-tool-call event observed during the run, the terminal completion
event's `tool_events` metadata carries its `tool_name`, `tool_call_id` and
`args` entry (the entries are exactly the observed calls, in order);
function-tool-result events are only logged. -/
theorem tool_events_metadata_amended (items : List RunItem) (fm : List Msg)
    (h : ∀ it ∈ items, is_raise it = false) :
    (∀ e ∈ stream_chat items fm, e.event_type ≠ "tool_call" ∧ e.event_type ≠ "tool_result") ∧
    (∃ e ∈ stream_chat items fm, ∃ meta, e.metadata = some meta ∧ meta.is_complete = true ∧
      meta.tool_events = items.filterMap tool_call_of ∧
      ∀ info, RunItem.toolCallEv info ∈ items → info ∈ meta.tool_events) := by
  have hh := handler_no_raise items {} fm h
  have hchat : stream_chat items fm =
      (stream_response_handler fm {} items).2.1 ++
        [{ event_type := "content", content := "",
           sequence := (stream_response_handler fm {} items).1.sequence,
           metadata := some ⟨true, (stream_response_handler fm {} items).1.all_messages,
             (stream_response_handler fm {} items).1.tool_events⟩ }] := by
    simp [stream_chat, hh.1]
  constructor
  · intro e he
    rw [hchat] at he
    rcases List.mem_append.mp he with hm | hm
    · have := (hh.2.1 e hm).1
      rw [this]
      exact ⟨by decide, by decide⟩
    · simp only [List.mem_singleton] at hm
      subst hm
      constructor
      · show ("content" : String) ≠ "tool_call"
        decide
      · show ("content" : String) ≠ "tool_result"
        decide
  · refine ⟨_, by rw [hchat]; exact List.mem_append_right _ (List.mem_singleton_self _), ?_⟩
    refine ⟨⟨true, (stream_response_handler fm {} items).1.all_messages,
      (stream_response_handler fm {} items).1.tool_events⟩, rfl, rfl, ?_, ?_⟩
    · rw [hh.2.2]
      rfl
    · intro info hinfo
      rw [hh.2.2]
      simp only [List.nil_append]  -- ({} : HCtx).tool_events = []
      exact List.mem_filterMap.mpr ⟨_, hinfo, rfl⟩

/-- Witness for `tool_events_metadata_amended` at a run with one tool call
and its paired result. -/
theorem tool_events_metadata_amended_witness :
    (∀ e ∈ stream_chat tool_call_items [],
      e.event_type ≠ "tool_call" ∧ e.event_type ≠ "tool_result") ∧
    (∃ e ∈ stream_chat tool_call_items [], ∃ meta, e.metadata = some meta ∧
      meta.is_complete = true ∧
      meta.tool_events = tool_call_items.filterMap tool_call_of ∧
      ∀ info, RunItem.toolCallEv info ∈ tool_call_items → info ∈ meta.tool_events) :=
  tool_events_metadata_amended tool_call_items [] (by decide)


/-- A run whose iteration raises after a raise-free prefix: the handler
reports the error, yields exactly one error event, and no event carries
metadata. -/
theorem handler_with_raise : ∀ (pre : List RunItem) (ctx : HCtx) (fm : List Msg) (m : String),
    (∀ it ∈ pre, is_raise it = false) →
    (stream_response_handler fm ctx (pre ++ [.raiseExc m])).2.2 = true ∧
    ((stream_response_handler fm ctx (pre ++ [.raiseExc m])).2.1.countP
      (fun e => e.event_type == "error")) = 1 ∧
    (∀ e ∈ (stream_response_handler fm ctx (pre ++ [.raiseExc m])).2.1, e.metadata = none)
  | [], ctx, fm, m, _ => by
    simp only [List.nil_append, stream_response_handler]
    refine ⟨by trivial, ?_, ?_⟩
    · simp [List.countP, List.countP.go]
    · intro e he
      simp only [List.mem_singleton] at he
      subst he
      rfl
  | item :: pre, ctx, fm, m, h => by
    have hpre : ∀ it ∈ pre, is_raise it = false :=
      fun it hit => h it (List.mem_cons_of_mem _ hit)
    cases item with
    | textDelta s =>
      by_cases hs : s = ""
      · simp only [List.cons_append, stream_response_handler, if_pos hs]
        exact handler_with_raise pre ctx fm m hpre
      · simp only [List.cons_append, stream_response_handler, if_neg hs]
        have hemit := emit_sentences_spec
          (extract_complete_sentences (ctx.sentence_buffer ++ s)).1
          { ctx with sentence_buffer := (extract_complete_sentences (ctx.sentence_buffer ++ s)).2 }
        have ih := handler_with_raise pre
          (emit_sentences { ctx with sentence_buffer := (extract_complete_sentences (ctx.sentence_buffer ++ s)).2 }
            (extract_complete_sentences (ctx.sentence_buffer ++ s)).1).1 fm m hpre
        simp only [List.append_eq]
        refine ⟨ih.1, ?_, ?_⟩
        · rw [List.countP_append, ih.2.1]
          have hz : (emit_sentences { ctx with sentence_buffer := (extract_complete_sentences (ctx.sentence_buffer ++ s)).2 }
              (extract_complete_sentences (ctx.sentence_buffer ++ s)).1).2.countP
              (fun e => e.event_type == "error") = 0 := by
            rw [List.countP_eq_zero]
            intro e he
            rw [(hemit.1 e he).1]
            decide
          rw [hz]
        · intro e he
          rcases List.mem_append.mp he with hm | hm
          · exact (hemit.1 e hm).2
          · exact ih.2.2 e hm
    | toolCallEv info =>
      simp only [List.cons_append, stream_response_handler]
      exact handler_with_raise pre _ fm m hpre
    | toolResultEv tid cnt =>
      simp only [List.cons_append, stream_response_handler]
      exact handler_with_raise pre ctx fm m hpre
    | raiseExc m2 =>
      exact absurd (h _ (List.mem_cons_self _ _)) (by simp [is_raise])

/-- The worker leaves the stored history unchanged over events that carry
no metadata. -/
theorem worker_update_none (init : List Msg) (N : Nat) :
    ∀ (evs : List SEvent), (∀ e ∈ evs, e.metadata = none) →
    worker_update_history init evs N = init := by
  intro evs
  induction evs generalizing init with
  | nil => intro _; rfl
  | cons e rest ih =>
    intro h
    have he := h e (List.mem_cons_self _ _)
    simp only [worker_update_history, List.foldl_cons, he]
    exact ih init (fun x hx => h x (List.mem_cons_of_mem _ hx))

/-- Claim C6: when the LLM run raises an exception, `stream_chat` yields
exactly one error event and no event with `is_complete` metadata, and the
worker's fold over the events leaves the broker's stored history for the
connection unchanged. -/
theorem error_event_history_unchanged (pre : List RunItem) (m : String)
    (fm init : List Msg) (N : Nat)
    (h : ∀ it ∈ pre, is_raise it = false) :
    (stream_chat (pre ++ [.raiseExc m]) fm).countP (fun e => e.event_type == "error") = 1 ∧
    (∀ e ∈ stream_chat (pre ++ [.raiseExc m]) fm, is_complete_event e = false) ∧
    worker_update_history init (stream_chat (pre ++ [.raiseExc m]) fm) N = init := by
  have hh := handler_with_raise pre {} fm m h
  have hchat : stream_chat (pre ++ [.raiseExc m]) fm =
      (stream_response_handler fm {} (pre ++ [.raiseExc m])).2.1 := by
    simp [stream_chat, hh.1]
  rw [hchat]
  refine ⟨hh.2.1, ?_, ?_⟩
  · intro e he
    simp [is_complete_event, hh.2.2 e he]
  · exact worker_update_none init N _ hh.2.2

/-- Witness for `error_event_history_unchanged`: one sentence delta followed
by an upstream failure, against the ten-turn history. -/
theorem error_event_history_unchanged_witness :
    (stream_chat ([.textDelta "你好。"] ++ [.raiseExc "上游超时"]) []).countP
      (fun e => e.event_type == "error") = 1 ∧
    (∀ e ∈ stream_chat ([.textDelta "你好。"] ++ [.raiseExc "上游超时"]) [],
      is_complete_event e = false) ∧
    worker_update_history h10 (stream_chat ([.textDelta "你好。"] ++ [.raiseExc "上游超时"]) []) 5 = h10 :=
  error_event_history_unchanged [.textDelta "你好。"] "上游超时" [] h10 5 (by decide)



/-- When the backward scan fails, the history holds fewer than `n` user
requests. -/
theorem split_none_lt : ∀ (n : Nat) (R : List Msg), 1 ≤ n →
    split_at_turns_rev n R = none → (R.filter is_user_request).length < n
  | n, [], hn, _ => hn
  | n, m :: rest, hn, h => by
    by_cases hu : is_user_request m
    · by_cases h1 : n ≤ 1
      · simp [split_at_turns_rev, hu, h1] at h
      · simp only [split_at_turns_rev, if_pos hu, if_neg h1] at h
        rcases hsp : split_at_turns_rev (n - 1) rest with _ | ⟨k, o⟩
        · have ih := split_none_lt (n - 1) rest (by omega) hsp
          simp [List.filter_cons, hu]
          omega
        · rw [hsp] at h; simp at h
    · simp only [split_at_turns_rev, if_neg hu] at h
      rcases hsp : split_at_turns_rev n rest with _ | ⟨k, o⟩
      · have ih := split_none_lt n rest hn hsp
        simpa [List.filter_cons, hu] using ih
      · rw [hsp] at h; simp at h

/-- When the backward scan succeeds, it splits the reversed history into a
kept block holding exactly `n` user requests and the older remainder. -/
theorem split_some_spec : ∀ (n : Nat) (R k o : List Msg), 1 ≤ n →
    split_at_turns_rev n R = some (k, o) →
    R = k ++ o ∧ (k.filter is_user_request).length = n
  | n, [], k, o, _, h => by simp [split_at_turns_rev] at h
  | n, m :: rest, k, o, hn, h => by
    by_cases hu : is_user_request m
    · by_cases h1 : n ≤ 1
      · simp only [split_at_turns_rev, if_pos hu, if_pos h1] at h
        obtain ⟨hk, ho⟩ := Prod.mk.injEq .. ▸ (Option.some.injEq .. ▸ h)
        subst hk; subst ho
        refine ⟨rfl, ?_⟩
        simp [List.filter_cons, hu]
        omega
      · simp only [split_at_turns_rev, if_pos hu, if_neg h1] at h
        rcases hsp : split_at_turns_rev (n - 1) rest with _ | ⟨k', o'⟩
        · rw [hsp] at h; simp at h
        · rw [hsp] at h; simp at h
          obtain ⟨hk, ho⟩ := h
          have ih := split_some_spec (n - 1) rest k' o' (by omega) hsp
          subst hk; subst ho
          refine ⟨by simp [ih.1], ?_⟩
          simp [List.filter_cons, hu]
          omega
    · simp only [split_at_turns_rev, if_neg hu] at h
      rcases hsp : split_at_turns_rev n rest with _ | ⟨k', o'⟩
      · rw [hsp] at h; simp at h
      · rw [hsp] at h; simp at h
        obtain ⟨hk, ho⟩ := h
        have ih := split_some_spec n rest k' o' hn hsp
        subst hk; subst ho
        constructor
        · simp [ih.1]
        · simpa [List.filter_cons, hu] using ih.2

/-- The extension loop splits its input into a prefix of extendable messages
and a remainder whose head, if any, is not extendable. -/
theorem extend_rev_spec : ∀ (o : List Msg),
    o = (extend_rev o).1 ++ (extend_rev o).2 ∧
    (∀ m ∈ (extend_rev o).1, extendable m = true) ∧
    (∀ m, (extend_rev o).2.head? = some m → extendable m = false)
  | [] => ⟨rfl, by simp [extend_rev], by simp [extend_rev]⟩
  | m :: rest => by
    by_cases he : extendable m
    · have ih := extend_rev_spec rest
      simp only [extend_rev, if_pos he]
      refine ⟨?_, ?_, ?_⟩
      · simpa using ih.1
      · intro x hx
        rcases List.mem_cons.mp hx with h1 | h1
        · exact h1 ▸ he
        · exact ih.2.1 x h1
      · exact ih.2.2
    · simp only [extend_rev, if_neg he]
      refine ⟨by simp, by simp, ?_⟩
      intro x hx
      simp only [List.head?_cons, Option.some.injEq] at hx
      subst hx
      simpa using he


/-- `trim_history` keeps a suffix: it equals `drop` at the final cut index. -/
theorem trim_history_eq_drop (msgs : List Msg) (n : Nat) :
    trim_history msgs n = msgs.drop (trim_cut msgs n) := by
  by_cases hn : n = 0
  · simp [trim_history, trim_cut, hn, List.drop_length]
  · rcases hsp : split_at_turns_rev n msgs.reverse with _ | ⟨k, o⟩
    · simp [trim_history, trim_cut, hn, hsp]
    · have hs := split_some_spec n msgs.reverse k o (by omega) hsp
      have he := extend_rev_spec o
      have hmsgs : msgs = (extend_rev o).2.reverse ++ ((extend_rev o).1.reverse ++ k.reverse) := by
        have : msgs.reverse = k ++ ((extend_rev o).1 ++ (extend_rev o).2) := by
          rw [← he.1]; exact hs.1
        calc msgs = msgs.reverse.reverse := (List.reverse_reverse msgs).symm
          _ = (k ++ ((extend_rev o).1 ++ (extend_rev o).2)).reverse := by rw [this]
          _ = (extend_rev o).2.reverse ++ ((extend_rev o).1.reverse ++ k.reverse) := by
              simp [List.reverse_append]
      simp only [trim_history, trim_cut, if_neg hn, hsp]
      rw [hmsgs]
      rw [List.drop_left' (by simp)]

/-- Turn counting distributes over append. -/
theorem count_turns_append (l₁ l₂ : List Msg) :
    count_turns (l₁ ++ l₂) = count_turns l₁ + count_turns l₂ := by
  simp [count_turns]

/-- Turn counting is invariant under reversal. -/
theorem count_turns_reverse (l : List Msg) :
    count_turns l.reverse = count_turns l := by
  simp [count_turns]

/-- When every user-prompt-bearing message is a request, counting user
requests agrees with `count_turns`. -/
theorem count_turns_eq_user_req (l : List Msg)
    (Hup : ∀ m ∈ l, has_kind m .userPrompt = true →
      m.role = .request ∧ has_kind m .systemPrompt = false) :
    (l.filter is_user_request).length = count_turns l := by
  unfold count_turns
  congr 1
  apply List.filter_congr
  intro m hm
  by_cases hu : has_kind m .userPrompt
  · have := (Hup m hm hu).1
    simp [is_user_request, this, hu]
  · simp [is_user_request, Bool.eq_false_iff.mpr hu]

/-- Claim C2 (amended): for `N ≥ 1`, when every message carrying a
`user-prompt` part is a request without a `system-prompt` part (the shape of
real histories except for the opening request of a run),
`count_turns (trim_history h N) = min (count_turns h) N`; `trim_history`
always keeps a suffix (`drop` at the cut index); and a `tool-call` response
immediately followed by the message carrying its `tool-return` is never
separated from it — the cut never lands right after a tool-call response.
Without these shape restrictions both halves of the original claim fail
(see the counterexample). -/
theorem trim_history_amended (h : List Msg) (N : Nat) (hN : 1 ≤ N)
    (Hup : ∀ m ∈ h, has_kind m .userPrompt = true →
      m.role = .request ∧ has_kind m .systemPrompt = false) :
    count_turns (trim_history h N) = min (count_turns h) N ∧
    trim_history h N = h.drop (trim_cut h N) ∧
    (∀ i m m', h[i]? = some m → h[i+1]? = some m' →
      m.role = .response → has_kind m .toolCall = true →
      (trim_cut h N ≤ i ↔ trim_cut h N ≤ i + 1)) := by
  have hn0 : N ≠ 0 := by omega
  refine ⟨?_, trim_history_eq_drop h N, ?_⟩
  · rcases hsp : split_at_turns_rev N h.reverse with _ | ⟨k, o⟩
    · have hlt := split_none_lt N h.reverse hN hsp
      have hrev : ∀ m ∈ h.reverse, has_kind m .userPrompt = true →
          m.role = .request ∧ has_kind m .systemPrompt = false :=
        fun m hm => Hup m (List.mem_reverse.mp hm)
      rw [count_turns_eq_user_req h.reverse hrev, count_turns_reverse] at hlt
      simp only [trim_history, if_neg hn0, hsp]
      omega
    · have hs := split_some_spec N h.reverse k o hN hsp
      have he := extend_rev_spec o
      have hsubk : ∀ m ∈ k, m ∈ h := by
        intro m hm
        have : m ∈ h.reverse := hs.1 ▸ List.mem_append_left _ hm
        exact List.mem_reverse.mp this
      have hsube : ∀ m ∈ (extend_rev o).1, m ∈ h := by
        intro m hm
        have ho : m ∈ o := he.1 ▸ List.mem_append_left _ hm
        have : m ∈ h.reverse := hs.1 ▸ List.mem_append_right _ ho
        exact List.mem_reverse.mp this
      have hck : count_turns k = N := by
        rw [← count_turns_eq_user_req k (fun m hm => Hup m (hsubk m hm))]
        exact hs.2
      have hce : count_turns (extend_rev o).1 = 0 := by
        unfold count_turns
        rw [List.length_eq_zero]
        rw [List.filter_eq_nil_iff]
        intro m hm hu
        have hext := he.2.1 m hm
        obtain ⟨hrole, hsys⟩ := Hup m (hsube m hm) hu
        unfold extendable at hext
        rw [hrole] at hext
        simp at hext
        rw [hsys] at hext
        exact Bool.false_ne_true hext
      have htotal : N ≤ count_turns h := by
        have : count_turns h.reverse = count_turns k + count_turns o := by
          rw [hs.1, count_turns_append]
        rw [count_turns_reverse] at this
        omega
      simp only [trim_history, if_neg hn0, hsp]
      rw [count_turns_append, count_turns_reverse, count_turns_reverse, hck, hce]
      omega
  · intro i m m' hi hi1 hrole htc
    constructor
    · intro hle
      omega
    · intro hle
      by_contra hgt
      have hcut : trim_cut h N = i + 1 := by omega
      rcases hsp : split_at_turns_rev N h.reverse with _ | ⟨k, o⟩
      · simp [trim_cut, if_neg hn0, hsp] at hcut
      · have hs := split_some_spec N h.reverse k o hN hsp
        have he := extend_rev_spec o
        have hcut2 : (extend_rev o).2.length = i + 1 := by
          simpa [trim_cut, if_neg hn0, hsp] using hcut
        rcases hr : (extend_rev o).2 with _ | ⟨m0, r'⟩
        · rw [hr] at hcut2; simp at hcut2
        · have hm0 : extendable m0 = false := he.2.2 m0 (by rw [hr]; rfl)
          have hmsgs : h = (extend_rev o).2.reverse ++ ((extend_rev o).1.reverse ++ k.reverse) := by
            have hh : h.reverse = k ++ ((extend_rev o).1 ++ (extend_rev o).2) := by
              rw [← he.1]; exact hs.1
            calc h = h.reverse.reverse := (List.reverse_reverse h).symm
              _ = (k ++ ((extend_rev o).1 ++ (extend_rev o).2)).reverse := by rw [hh]
              _ = _ := by simp [List.reverse_append]
          have hget : h[i]? = (extend_rev o).2.reverse[i]? := by
            rw [hmsgs]
            exact List.getElem?_append_left (by simp; omega)
          have hget2 : (extend_rev o).2.reverse[i]? = (extend_rev o).2[0]? := by
            apply List.getElem?_reverse'
            omega
          have : some m = some m0 := by
            rw [← hi, hget, hget2, hr]
            simp
          have hmm : m = m0 := Option.some.injEq .. ▸ this
          rw [← hmm] at hm0
          unfold extendable at hm0
          rw [hrole, htc] at hm0
          simp at hm0
  

/-- Witness for `trim_history_amended`: two plain turns trimmed to one. -/
theorem trim_history_amended_witness :
    count_turns (trim_history (mk_turn "q1" "a1" ++ mk_turn "q2" "a2") 1) =
      min (count_turns (mk_turn "q1" "a1" ++ mk_turn "q2" "a2")) 1 ∧
    trim_history (mk_turn "q1" "a1" ++ mk_turn "q2" "a2") 1 =
      (mk_turn "q1" "a1" ++ mk_turn "q2" "a2").drop
        (trim_cut (mk_turn "q1" "a1" ++ mk_turn "q2" "a2") 1) ∧
    (∀ i m m', (mk_turn "q1" "a1" ++ mk_turn "q2" "a2")[i]? = some m →
      (mk_turn "q1" "a1" ++ mk_turn "q2" "a2")[i+1]? = some m' →
      m.role = .response → has_kind m .toolCall = true →
      (trim_cut (mk_turn "q1" "a1" ++ mk_turn "q2" "a2") 1 ≤ i ↔
       trim_cut (mk_turn "q1" "a1" ++ mk_turn "q2" "a2") 1 ≤ i + 1)) :=
  trim_history_amended (mk_turn "q1" "a1" ++ mk_turn "q2" "a2") 1 (by decide) (by decide)

/-- The remainder of the extraction does not depend on the accumulator nor
on the whitespace filter. -/
theorem extract_go_rest_eq : ∀ (l cur : List Char) (acc acc' : List (List Char)),
    (extract_go cur acc l).2 = (extract_go_all cur acc' l).2
  | [], cur, acc, acc' => rfl
  | c :: cs, cur, acc, acc' => by
    by_cases hf : sentence_end_char c && run_ends_here cs
    · simp only [extract_go, extract_go_all, if_pos hf]
      exact extract_go_rest_eq cs [] _ _
    · simp only [extract_go, extract_go_all, if_neg hf]
      exact extract_go_rest_eq cs (c :: cur) acc acc'

/-- The extraction accumulates sentences in front of those of an empty
accumulator. -/
theorem extract_go_acc : ∀ (l cur : List Char) (acc : List (List Char)),
    (extract_go cur acc l).1 = acc.reverse ++ (extract_go cur [] l).1
  | [], cur, acc => by simp [extract_go]
  | c :: cs, cur, acc => by
    by_cases hf : sentence_end_char c && run_ends_here cs
    · simp only [extract_go, if_pos hf]
      by_cases hp : ((c :: cur).reverse).any (fun x => !(python_ws x))
      · rw [if_pos hp, if_pos hp]
        rw [extract_go_acc cs [] ((c :: cur).reverse :: acc),
          extract_go_acc cs [] [(c :: cur).reverse]]
        simp
      · rw [if_neg hp, if_neg hp]
        exact extract_go_acc cs [] acc
    · simp only [extract_go, if_neg hf]
      exact extract_go_acc cs (c :: cur) acc

/-- Accumulator lemma for the unfiltered extraction. -/
theorem extract_go_all_acc : ∀ (l cur : List Char) (acc : List (List Char)),
    (extract_go_all cur acc l).1 = acc.reverse ++ (extract_go_all cur [] l).1
  | [], cur, acc => by simp [extract_go_all]
  | c :: cs, cur, acc => by
    by_cases hf : sentence_end_char c && run_ends_here cs
    · simp only [extract_go_all, if_pos hf]
      rw [extract_go_all_acc cs [] ((c :: cur).reverse :: acc),
        extract_go_all_acc cs [] [(c :: cur).reverse]]
      simp
    · simp only [extract_go_all, if_neg hf]
      exact extract_go_all_acc cs (c :: cur) acc

/-- The extracted sentences are exactly the terminator-delimited segments
with the whitespace-only ones dropped. -/
theorem extract_go_filter : ∀ (l cur : List Char),
    (extract_go cur [] l).1 =
      ((extract_go_all cur [] l).1).filter (fun s => s.any (fun x => !(python_ws x)))
  | [], cur => by simp [extract_go, extract_go_all]
  | c :: cs, cur => by
    by_cases hf : sentence_end_char c && run_ends_here cs
    · have hacc1 := extract_go_acc cs [] [(c :: cur).reverse]
      have hacc2 := extract_go_all_acc cs [] [(c :: cur).reverse]
      have ih := extract_go_filter cs []
      simp only [extract_go, extract_go_all, if_pos hf]
      by_cases hp : ((c :: cur).reverse).any (fun x => !(python_ws x))
      · rw [if_pos hp, hacc1, hacc2, List.filter_append, ih]
        congr 1
        refine (List.filter_eq_self.mpr ?_).symm
        intro a ha
        simp only [List.reverse_singleton, List.mem_singleton] at ha
        subst ha
        exact hp
      · have hnil : List.filter (fun s => s.any (fun x => !(python_ws x)))
            [(c :: cur).reverse] = [] := by
          rw [List.filter_eq_nil_iff]
          intro a ha
          simp only [List.mem_singleton] at ha
          subst ha
          simpa using hp
        rw [if_neg hp, hacc2, List.reverse_singleton, List.filter_append, ih, hnil,
          List.nil_append]
    · simp only [extract_go, extract_go_all, if_neg hf]
      exact extract_go_filter cs (c :: cur)

/-- The terminator-delimited segments concatenate, with the remainder, back
to the input. -/
theorem extract_go_all_join : ∀ (l cur : List Char) (acc : List (List Char)),
    ((extract_go_all cur acc l).1).flatten ++ (extract_go_all cur acc l).2 =
      acc.reverse.flatten ++ cur.reverse ++ l
  | [], cur, acc => by simp [extract_go_all]
  | c :: cs, cur, acc => by
    by_cases hf : sentence_end_char c && run_ends_here cs
    · simp only [extract_go_all, if_pos hf]
      rw [extract_go_all_join cs [] ((c :: cur).reverse :: acc)]
      simp
    · simp only [extract_go_all, if_neg hf]
      rw [extract_go_all_join cs (c :: cur) acc]
      simp

/-- The remainder after extraction holds no terminator character. -/
theorem extract_go_rest_no_term : ∀ (l cur : List Char) (acc : List (List Char)),
    ((∀ c ∈ cur, sentence_end_char c = false) ∨
      (∃ d ds, l = d :: ds ∧ sentence_end_char d = true)) →
    ∀ c ∈ (extract_go cur acc l).2, sentence_end_char c = false
  | [], cur, acc, hinv => by
    rcases hinv with h | ⟨d, ds, hds, _⟩
    · intro c hc
      exact h c (List.mem_reverse.mp hc)
    · exact absurd hds (by simp)
  | c :: cs, cur, acc, hinv => by
    by_cases hf : sentence_end_char c && run_ends_here cs
    · simp only [extract_go, if_pos hf]
      apply extract_go_rest_no_term cs []
      left
      simp
    · simp only [extract_go, if_neg hf]
      apply extract_go_rest_no_term cs (c :: cur)
      by_cases hc : sentence_end_char c
      · right
        have hre : run_ends_here cs = false := by
          rcases Bool.and_eq_false_iff.mp (Bool.eq_false_iff.mpr hf) with h | h
          · exact absurd hc (by simp [h])
          · exact h
        rcases cs with _ | ⟨d, ds⟩
        · simp [run_ends_here] at hre
        · refine ⟨d, ds, rfl, ?_⟩
          simpa [run_ends_here] using hre
      · left
        intro x hx
        rcases List.mem_cons.mp hx with h1 | h1
        · subst h1
          simpa using hc
        · rcases hinv with h | ⟨d, ds, hds, hd⟩
          · exact h x h1
          · obtain ⟨hdc, -⟩ := List.cons.injEq .. ▸ hds
            exact absurd (hdc ▸ hd) (by simpa using hc)

/-- Every extracted sentence has a non-whitespace character. -/
theorem extract_go_sentences_non_ws : ∀ (l cur : List Char) (acc : List (List Char)),
    (∀ s ∈ acc, s.any (fun x => !(python_ws x)) = true) →
    ∀ s ∈ (extract_go cur acc l).1, s.any (fun x => !(python_ws x)) = true
  | [], cur, acc, hacc => by
    intro s hs
    exact hacc s (List.mem_reverse.mp hs)
  | c :: cs, cur, acc, hacc => by
    by_cases hf : sentence_end_char c && run_ends_here cs
    · simp only [extract_go, if_pos hf]
      by_cases hp : ((c :: cur).reverse).any (fun x => !(python_ws x))
      · rw [if_pos hp]
        apply extract_go_sentences_non_ws cs [] _
        intro s hs
        rcases List.mem_cons.mp hs with h1 | h1
        · exact h1 ▸ hp
        · exact hacc s h1
      · rw [if_neg hp]
        exact extract_go_sentences_non_ws cs [] acc hacc
    · simp only [extract_go, if_neg hf]
      exact extract_go_sentences_non_ws cs (c :: cur) acc hacc


/-- Folding string append over packed character lists packs the flattening. -/
theorem string_foldl_append_mk : ∀ (ls : List (List Char)) (a : List Char),
    List.foldl (· ++ ·) (⟨a⟩ : String) (ls.map (fun l => (⟨l⟩ : String))) = ⟨a ++ ls.flatten⟩
  | [], a => by simp
  | l :: ls, a => by
    simp only [List.map_cons, List.foldl_cons]
    have : ((⟨a⟩ : String) ++ (⟨l⟩ : String)) = (⟨a ++ l⟩ : String) := rfl
    rw [this, string_foldl_append_mk ls (a ++ l)]
    simp

/-- `String.join` over packed character lists packs the flattening. -/
theorem string_join_mk (ls : List (List Char)) :
    String.join (ls.map (fun l => (⟨l⟩ : String))) = ⟨ls.flatten⟩ := by
  have := string_foldl_append_mk ls []
  simpa [String.join] using this

/-- Claim C10: for every buffer `B`, `_extract_complete_sentences B` returns
a remainder holding no terminator character and sentences that each contain
a non-whitespace character; and when no terminator-delimited segment of `B`
is whitespace-only, concatenating the sentences and the remainder
reconstructs `B`, so batching neither loses nor duplicates streamed text. -/
theorem extract_sentences_properties (B : String) :
    (∀ c ∈ (extract_complete_sentences B).2.toList, sentence_end_char c = false) ∧
    (∀ s ∈ (extract_complete_sentences B).1, has_non_ws s = true) ∧
    ((∀ seg ∈ terminator_segments B, has_non_ws seg = true) →
      String.join (extract_complete_sentences B).1 ++ (extract_complete_sentences B).2 = B) := by
  refine ⟨?_, ?_, ?_⟩
  · intro c hc
    apply extract_go_rest_no_term B.toList [] [] (Or.inl (by simp)) c
    simpa [extract_complete_sentences, String.toList] using hc
  · intro s hs
    simp only [extract_complete_sentences, List.mem_map] at hs
    obtain ⟨l, hl, hls⟩ := hs
    have := extract_go_sentences_non_ws B.toList [] [] (by simp) l hl
    rw [← hls]
    simpa [has_non_ws, String.toList] using this
  · intro hseg
    have hall : ∀ l ∈ (extract_go_all [] [] B.toList).1,
        l.any (fun x => !(python_ws x)) = true := by
      intro l hl
      have hm : (⟨l⟩ : String) ∈ terminator_segments B := by
        simp only [terminator_segments, List.mem_map]
        exact ⟨l, hl, rfl⟩
      simpa [has_non_ws, String.toList] using hseg _ hm
    have hfilter : ((extract_go_all [] [] B.toList).1).filter
        (fun s => s.any (fun x => !(python_ws x))) = (extract_go_all [] [] B.toList).1 :=
      List.filter_eq_self.mpr hall
    have h1 : (extract_go [] [] B.toList).1 = (extract_go_all [] [] B.toList).1 := by
      rw [extract_go_filter, hfilter]
    have h2 : (extract_go [] [] B.toList).2 = (extract_go_all [] [] B.toList).2 :=
      extract_go_rest_eq B.toList [] [] []
    have hjoin := extract_go_all_join B.toList [] []
    simp only [List.reverse_nil, List.flatten_nil, List.nil_append] at hjoin
    simp only [extract_complete_sentences]
    rw [string_join_mk, h1, h2]
    have happ : ((⟨(extract_go_all [] [] B.toList).1.flatten⟩ : String) ++
        (⟨(extract_go_all [] [] B.toList).2⟩ : String)) =
        (⟨(extract_go_all [] [] B.toList).1.flatten ++ (extract_go_all [] [] B.toList).2⟩ : String) := rfl
    rw [happ, hjoin]
    rfl

/-- Witness for `extract_sentences_properties` at the buffer
`"你好，世界。再见"`. -/
theorem extract_sentences_properties_witness :
    (∀ c ∈ (extract_complete_sentences "你好，世界。再见").2.toList, sentence_end_char c = false) ∧
    (∀ s ∈ (extract_complete_sentences "你好，世界。再见").1, has_non_ws s = true) ∧
    String.join (extract_complete_sentences "你好，世界。再见").1 ++
      (extract_complete_sentences "你好，世界。再见").2 = "你好，世界。再见" :=
  ⟨(extract_sentences_properties "你好，世界。再见").1,
   (extract_sentences_properties "你好，世界。再见").2.1,
   (extract_sentences_properties "你好，世界。再见").2.2 (by decide)⟩


end MCBE
